import Mathlib

/-!
# Verification of the offline-registry checker

A shallow embedding of `src/main.rs` (crate `registry_checker`) together
with the parts of the `semver` library crate the program calls
(`Version::parse`, `Version` display, `VersionReq` matching).  Machine
integers (`u64`) are modelled as `Nat`; the program never exercises
overflow.  File-system and process I/O are modelled as explicit inputs
and outputs of a pure pipeline function.
-/

namespace RegistryChecker

/-- A pre-release identifier of a semantic version: either a numeric
identifier (all digits, no leading zeros) or an alphanumeric one.
Models `semver::Identifier` as it appears inside `Prerelease`. -/
inductive PreId where
  | num (n : Nat)
  | alphanum (s : String)
deriving DecidableEq

/-- Model of `semver::Version`: major, minor, patch, pre-release
identifiers and build-metadata identifiers.  `u64` components are
modelled as `Nat`. -/
structure Version where
  major : Nat
  minor : Nat
  patch : Nat
  pre : List PreId
  build : List String
deriving DecidableEq

/-! ## Decimal digits

`natDigits n` is the decimal spelling of `n`, as printed by Rust's
`Display` for integers (used by `format!` and by `semver`'s `Display`).
Structural fuel keeps the definition reducible by the kernel. -/

def natDigitsAux (fuel n : Nat) : List Char :=
  match fuel with
  | 0 => []
  | f + 1 =>
    if n < 10 then [Nat.digitChar n]
    else natDigitsAux f (n / 10) ++ [Nat.digitChar (n % 10)]

def natDigits (n : Nat) : List Char := natDigitsAux (n + 1) n

/-- The decimal value of a digit string, accumulated left to right. -/
def charsToNat (cs : List Char) : Nat :=
  cs.foldl (fun a c => 10 * a + (c.toNat - 48)) 0

/-! ## Character-list utilities shared by the parsers -/

/-- Split a character list at every occurrence of `c` (occurrences are
dropped; `n` separators yield `n + 1` chunks). -/
def splitOnChar (c : Char) : List Char → List (List Char)
  | [] => [[]]
  | x :: xs =>
    if x = c then [] :: splitOnChar c xs
    else
      match splitOnChar c xs with
      | [] => [[x]]
      | y :: ys => (x :: y) :: ys

/-- Join character-list chunks with a single separator character
(inverse of `splitOnChar` on separator-free chunks). -/
def joinCharSep (c : Char) : List (List Char) → List Char
  | [] => []
  | [x] => x
  | x :: xs => x ++ c :: joinCharSep c xs

/-- Allowed characters of semver pre-release/build identifiers:
ASCII alphanumerics and the dash. -/
def isIdentChar (c : Char) : Bool := c.isAlphanum || c = '-'

/-! ## `semver::Version::parse` -/

/-- A semver numeric identifier: nonempty, all ASCII digits, no leading
zero (models `numeric_identifier` in `semver`'s parser, with `Nat` in
place of the `u64` overflow check, which the program never hits). -/
def parseNumId : List Char → Option Nat
  | [] => none
  | c :: rest =>
    if (c :: rest).all Char.isDigit then
      if c = '0' ∧ rest ≠ [] then none
      else some (charsToNat (c :: rest))
    else none

/-- One pre-release identifier: numeric if all digits (then leading
zeros are rejected), otherwise alphanumeric over the identifier
alphabet. -/
def parsePreId (cs : List Char) : Option PreId :=
  if cs = [] then none
  else if cs.all Char.isDigit then
    match parseNumId cs with
    | some n => some (.num n)
    | none => none
  else if cs.all isIdentChar then some (.alphanum (String.mk cs))
  else none

/-- One build-metadata identifier: nonempty, over the identifier
alphabet (leading zeros permitted). -/
def parseBuildId (cs : List Char) : Option String :=
  if cs ≠ [] ∧ cs.all isIdentChar then some (String.mk cs) else none

/-- Sequence a parser over a list of chunks, failing if any chunk
fails. -/
def parseAll {α : Type} (f : List Char → Option α) : List (List Char) → Option (List α)
  | [] => some []
  | x :: xs =>
    match f x, parseAll f xs with
    | some a, some as => some (a :: as)
    | _, _ => none

/-- Model of `semver::Version::parse` on a character list: a dotted
numeric triple, then an optional `-` pre-release part, then an optional
`+` build part.  Equivalent to `semver`'s recursive-descent parser: the
version core contains no `-` or `+`, so splitting the input at the
first `-`/`+` and the parts at dots reproduces its verdicts. -/
def Version.parseChars (cs : List Char) : Option Version :=
  let core := cs.takeWhile (fun c => c != '-' && c != '+')
  let rest := cs.drop core.length
  match splitOnChar '.' core with
  | [a, b, c] =>
    match parseNumId a, parseNumId b, parseNumId c with
    | some mj, some mi, some pa =>
      match rest with
      | [] => some ⟨mj, mi, pa, [], []⟩
      | '-' :: r =>
        let preChars := r.takeWhile (fun c => c != '+')
        let rest2 := r.drop preChars.length
        match parseAll parsePreId (splitOnChar '.' preChars) with
        | some pre =>
          match rest2 with
          | [] => some ⟨mj, mi, pa, pre, []⟩
          | '+' :: b2 =>
            match parseAll parseBuildId (splitOnChar '.' b2) with
            | some bld => some ⟨mj, mi, pa, pre, bld⟩
            | none => none
          | _ => none
        | none => none
      | '+' :: b2 =>
        match parseAll parseBuildId (splitOnChar '.' b2) with
        | some bld => some ⟨mj, mi, pa, [], bld⟩
        | none => none
      | _ => none
    | _, _, _ => none
  | _ => none

/-- `semver::Version::parse` on a string. -/
def Version.parse (s : String) : Option Version := Version.parseChars s.data

/-! ## `semver::Version` display -/

/-- Characters of one pre-release identifier as displayed. -/
def preIdChars : PreId → List Char
  | .num n => natDigits n
  | .alphanum s => s.data

/-- Characters of a displayed version:
`major.minor.patch[-pre][+build]` (model of `Display for Version`). -/
def versionChars (v : Version) : List Char :=
  natDigits v.major ++ '.' :: natDigits v.minor ++ '.' :: natDigits v.patch
    ++ (if v.pre = [] then [] else '-' :: joinCharSep '.' (v.pre.map preIdChars))
    ++ (if v.build = [] then [] else '+' :: joinCharSep '.' (v.build.map String.data))

/-- `format!("{}", version)`. -/
def versionToString (v : Version) : String := String.mk (versionChars v)

/-! ## The inventory filename parser (`parse_crate_name_version`) -/

/-- The characters of the `.crate` suffix. -/
def crateSuffix : List Char := ['.', 'c', 'r', 'a', 't', 'e']

/-- Model of `str::strip_suffix(".crate")`: `some` of the string minus
its last six characters when it ends with `.crate`, else `none`. -/
def stripCrateSuffix (cs : List Char) : Option (List Char) :=
  if crateSuffix.isSuffixOf cs then some (cs.take (cs.length - 6)) else none

/-- Model of `rfind('-')` followed by the two slices: splits at the
last dash into (name part, version part), `none` when there is no
dash. -/
def splitAtLastDash (cs : List Char) : Option (List Char × List Char) :=
  let after := (cs.reverse.takeWhile (fun c => c != '-')).reverse
  if after.length = cs.length then none
  else some (cs.take (cs.length - after.length - 1), after)

/-- `parse_crate_name_version` (src/main.rs:71-84): strip the `.crate`
extension, split at the last dash, parse the tail as a semver
version. -/
def parseCrateNameVersion (s : String) : Option (String × Version) :=
  match stripCrateSuffix s.data with
  | none => none
  | some withoutExt =>
    match splitAtLastDash withoutExt with
    | none => none
    | some (name, versionStr) =>
      match Version.parseChars versionStr with
      | some version => some (String.mk name, version)
      | none => none

/-- `format!("{}-{}.crate", name, version)` (src/main.rs:231, 290). -/
def crateFileName (name : String) (v : Version) : String :=
  String.mk (name.data ++ '-' :: versionChars v ++ crateSuffix)

/-! ## Semantic-version precedence

The spec's "semantic-version ordering: major, then minor, then patch,
then pre-release rules" (used only to state claims about "latest" and
"downgrade"; the program itself never orders versions).  Matches
`semver`'s precedence: a release compares greater than any pre-release
of the same triple; pre-release identifiers compare pointwise, numeric
before alphanumeric, missing identifiers first. -/

/-- Lexicographic comparison of character lists by code point (equal to
Rust's byte comparison of UTF-8 strings). -/
def compareChars : List Char → List Char → Ordering
  | [], [] => .eq
  | [], _ :: _ => .lt
  | _ :: _, [] => .gt
  | a :: as, b :: bs => (compare a.toNat b.toNat).then (compareChars as bs)

/-- Rust's `String` ordering (`a <= b` as byte-lexicographic
comparison), used by `Vec::sort` on strings. -/
def strLeB (a b : String) : Bool :=
  match compareChars a.data b.data with
  | .gt => false
  | _ => true

/-- `strLeB` as a relation, the sort order of `Vec::<String>::sort`. -/
def strLe (a b : String) : Prop := strLeB a b = true

instance strLe.decidableRel : DecidableRel strLe :=
  fun a b => inferInstanceAs (Decidable (strLeB a b = true))

instance strLe.decidableRelFst {α : Type} :
    DecidableRel (fun (a b : String × α) => strLe a.1 b.1) :=
  fun a b => strLe.decidableRel a.1 b.1

/-- Compare two pre-release identifiers: numeric by value, numeric
before alphanumeric, alphanumeric lexicographically. -/
def cmpPreId : PreId → PreId → Ordering
  | .num a, .num b => compare a b
  | .num _, .alphanum _ => .lt
  | .alphanum _, .num _ => .gt
  | .alphanum s, .alphanum t => compareChars s.data t.data

/-- Pointwise comparison of pre-release identifier lists; a longer list
compares greater when the shorter is a prefix. -/
def cmpPreIds : List PreId → List PreId → Ordering
  | [], [] => .eq
  | [], _ :: _ => .lt
  | _ :: _, [] => .gt
  | x :: xs, y :: ys => (cmpPreId x y).then (cmpPreIds xs ys)

/-- Compare pre-release parts: the empty part (a release) is greater
than any nonempty part. -/
def cmpPre : List PreId → List PreId → Ordering
  | [], [] => .eq
  | [], _ :: _ => .gt
  | _ :: _, [] => .lt
  | x :: xs, y :: ys => (cmpPreId x y).then (cmpPreIds xs ys)

/-- Semantic-version precedence: major, minor, patch, then pre-release
(build metadata carries no precedence). -/
def cmpVersion (v w : Version) : Ordering :=
  (compare v.major w.major).then
    ((compare v.minor w.minor).then
      ((compare v.patch w.patch).then (cmpPre v.pre w.pre)))

/-- `v` is strictly smaller than `w` in semantic-version precedence. -/
def versionLtB (v w : Version) : Bool :=
  match cmpVersion v w with
  | .lt => true
  | _ => false

/-- The greatest element of a nonempty version list under precedence
(the spec's "latest = maximum available version for that name"). -/
def latestVersion : List Version → Version
  | [] => ⟨0, 0, 0, [], []⟩
  | x :: xs => xs.foldl (fun a b => if versionLtB a b then b else a) x

/-! ## `semver::VersionReq` and requirement matching

Models `semver`'s `Comparator` (`build metadata in a comparator is
parsed and discarded, so the struct has no build field) and the
matching functions of its `eval` module. -/

/-- A comparator operator (`semver::Op`). -/
inductive Op where
  | exact
  | greater
  | greaterEq
  | less
  | lessEq
  | tilde
  | caret
  | wildcard
deriving DecidableEq

/-- `semver::Comparator`: an operator with a major component, optional
minor and patch components, and a pre-release part. -/
structure Comparator where
  op : Op
  major : Nat
  minor : Option Nat
  patch : Option Nat
  pre : List PreId
deriving DecidableEq

/-- `semver::VersionReq`: a conjunction of comparators (the empty list
is `VersionReq::STAR`). -/
def VersionReq := List Comparator
deriving instance DecidableEq for VersionReq

/-- `ver.pre >= cmp.pre` on `Prerelease`s. -/
def preGe (p q : List PreId) : Bool :=
  match cmpPre p q with
  | .lt => false
  | _ => true

/-- `matches_exact` from `semver`'s eval module. -/
def matchesExact (c : Comparator) (v : Version) : Bool :=
  if v.major ≠ c.major then false
  else if (match c.minor with | some m => v.minor != m | none => false) then false
  else if (match c.patch with | some p => v.patch != p | none => false) then false
  else v.pre = c.pre

/-- `matches_greater` from `semver`'s eval module. -/
def matchesGreater (c : Comparator) (v : Version) : Bool :=
  if v.major ≠ c.major then v.major > c.major
  else match c.minor with
    | none => false
    | some minor =>
      if v.minor ≠ minor then v.minor > minor
      else match c.patch with
        | none => false
        | some patch =>
          if v.patch ≠ patch then v.patch > patch
          else cmpPre v.pre c.pre = .gt

/-- `matches_less` from `semver`'s eval module. -/
def matchesLess (c : Comparator) (v : Version) : Bool :=
  if v.major ≠ c.major then v.major < c.major
  else match c.minor with
    | none => false
    | some minor =>
      if v.minor ≠ minor then v.minor < minor
      else match c.patch with
        | none => false
        | some patch =>
          if v.patch ≠ patch then v.patch < patch
          else cmpPre v.pre c.pre = .lt

/-- `matches_tilde` from `semver`'s eval module. -/
def matchesTilde (c : Comparator) (v : Version) : Bool :=
  if v.major ≠ c.major then false
  else match c.minor with
    | none => true
    | some minor =>
      if v.minor ≠ minor then false
      else match c.patch with
        | none => true
        | some patch =>
          if v.patch ≠ patch then v.patch > patch
          else preGe v.pre c.pre

/-- `matches_caret` from `semver`'s eval module. -/
def matchesCaret (c : Comparator) (v : Version) : Bool :=
  if v.major ≠ c.major then false
  else match c.minor with
    | none => true
    | some minor =>
      match c.patch with
      | none => if c.major > 0 then v.minor ≥ minor else v.minor = minor
      | some patch =>
        if c.major > 0 then
          if v.minor ≠ minor then v.minor > minor
          else if v.patch ≠ patch then v.patch > patch
          else preGe v.pre c.pre
        else if minor > 0 then
          if v.minor ≠ minor then false
          else if v.patch ≠ patch then v.patch > patch
          else preGe v.pre c.pre
        else if v.minor ≠ minor ∨ v.patch ≠ patch then false
        else preGe v.pre c.pre

/-- `matches_impl`: dispatch a comparator on its operator. -/
def matchesImpl (c : Comparator) (v : Version) : Bool :=
  match c.op with
  | .exact | .wildcard => matchesExact c v
  | .greater => matchesGreater c v
  | .greaterEq => matchesExact c v || matchesGreater c v
  | .less => matchesLess c v
  | .lessEq => matchesExact c v || matchesLess c v
  | .tilde => matchesTilde c v
  | .caret => matchesCaret c v

/-- A comparator that lets a pre-release version through: same triple
and a nonempty pre-release part (`pre_is_compatible`). -/
def preIsCompatible (c : Comparator) (v : Version) : Bool :=
  c.major = v.major && c.minor = some v.minor && c.patch = some v.patch
    && c.pre ≠ []

/-- `VersionReq::matches` (`matches_req`): every comparator matches,
and a pre-release version additionally needs some comparator with the
same triple and a pre-release part. -/
def matchesReq (req : VersionReq) (v : Version) : Bool :=
  (req.all (fun c => matchesImpl c v))
    && (v.pre.isEmpty || req.any (fun c => preIsCompatible c v))

/-- The requirement the program synthesizes for a dependency with no
declared requirement:
`VersionReq::parse(&format!("^{}", needed_version)).unwrap_or(VersionReq::STAR)`
(src/main.rs:194-201).  Parsing `^` followed by a displayed version
always succeeds and yields one caret comparator with that version's
components (a comparator keeps no build metadata), so the fallback to
`STAR` never fires. -/
def synthesizedReq (v : Version) : VersionReq :=
  [⟨.caret, v.major, some v.minor, some v.patch, v.pre⟩]

/-! ## `semver` display of requirements (used in reason strings) -/

/-- Decimal string of a `Nat`. -/
def natStr (n : Nat) : String := String.mk (natDigits n)

/-- `Display for Comparator`. -/
def compToString (c : Comparator) : String :=
  (match c.op with
    | .exact => "="
    | .greater => ">"
    | .greaterEq => ">="
    | .less => "<"
    | .lessEq => "<="
    | .tilde => "~"
    | .caret => "^"
    | .wildcard => "")
  ++ natStr c.major
  ++ (match c.minor with
      | none => if c.op = .wildcard then ".*" else ""
      | some m =>
        "." ++ natStr m
        ++ (match c.patch with
            | none => if c.op = .wildcard then ".*" else ""
            | some p =>
              "." ++ natStr p
              ++ (if c.pre = [] then ""
                  else "-" ++ String.mk (joinCharSep '.' (c.pre.map preIdChars)))))

/-- Join strings with a separator (`[T]::join`). -/
def joinSep (sep : String) : List String → String
  | [] => ""
  | [x] => x
  | x :: xs => x ++ sep ++ joinSep sep xs

/-- `Display for VersionReq`: `*` when empty, else comparators joined
by a comma and space. -/
def reqToString (r : VersionReq) : String :=
  if r = [] then "*" else joinSep ", " (r.map compToString)

/-! ## The reconciliation pipeline (`main`, src/main.rs:122-317)

The I/O shell (running `cargo tree`, reading `Cargo.toml`, reading the
registry file) is modelled as structured inputs: the resolved
dependency list, the declared-requirement map and the registry file
content.  Hash-map/hash-set iteration order is unspecified in Rust; the
model fixes first-occurrence order, which no proved statement depends
on (the written output is sorted, and reason strings are only examined
for membership of each version). -/

/-- Whitespace for the model of `str::trim` (the ASCII whitespace the
inventory file can contain; Rust trims full Unicode whitespace). -/
def isWsChar (c : Char) : Bool := c = ' ' || c = '\t' || c = '\n' || c = '\r'

/-- Model of `str::trim` on a character list: drop leading and trailing
whitespace. -/
def trimChars (cs : List Char) : List Char :=
  ((cs.dropWhile isWsChar).reverse.dropWhile isWsChar).reverse

/-- `str::trim` on a string. -/
def trimStr (s : String) : String := String.mk (trimChars s.data)

/-- The lines of the registry file content (split at newlines; `lines`'
`\r` handling is absorbed by the subsequent trim). -/
def splitLines (content : String) : List String :=
  (splitOnChar '\n' content.data).map String.mk

/-- The raw inventory set (src/main.rs:170-174): each line trimmed,
blank lines dropped, duplicates removed (a `HashSet`, linearized in
first-occurrence order). -/
def existingRegistry (content : String) : List String :=
  (((splitLines content).map trimStr).filter (fun l => l ≠ "")).dedup

/-- Association-list lookup, modelling `HashMap::get`. -/
def lookupA {α : Type} : List (String × α) → String → Option α
  | [], _ => none
  | (k, a) :: rest, key => if k = key then some a else lookupA rest key

/-- `registry_versions.entry(name).or_default().push(version)`:
append the version to the name's bucket, creating the bucket if
absent. -/
def insertVersion : List (String × List Version) → String → Version →
    List (String × List Version)
  | [], n, v => [(n, [v])]
  | (k, vs) :: rest, n, v =>
    if k = n then (k, vs ++ [v]) :: rest
    else (k, vs) :: insertVersion rest n v

/-- The name-to-versions map (src/main.rs:176-182): every parseable
inventory entry contributes its version to its name's bucket;
unparseable entries contribute nothing. -/
def buildRegistryVersions (lines : List String) : List (String × List Version) :=
  lines.foldl
    (fun acc line =>
      match parseCrateNameVersion line with
      | some (n, v) => insertVersion acc n v
      | none => acc)
    []

/-- The structured input of one reconciliation run: the resolved
dependency closure from `cargo tree`, the declared requirements from
`Cargo.toml`, the registry file content, and the `--write` flag. -/
structure PipelineInput where
  projectDeps : List (String × Version)
  cargoRequirements : List (String × VersionReq)
  registryContent : String
  write : Bool

/-- The name-to-versions map of a run's registry file. -/
def registryVersionsOf (inp : PipelineInput) : List (String × List Version) :=
  buildRegistryVersions (existingRegistry inp.registryContent)

/-- The applicable requirement for one dependency (src/main.rs:194-201):
the declared requirement when present, else the caret requirement
synthesized from the resolved version. -/
def applicableReq (inp : PipelineInput) (name : String) (needed : Version) :
    VersionReq :=
  (lookupA inp.cargoRequirements name).getD (synthesizedReq needed)

/-- `has_compatible_version` (src/main.rs:203-207): some registry
version of this name matches the applicable requirement. -/
def hasCompatibleVersion (inp : PipelineInput) (name : String) (needed : Version) :
    Bool :=
  match lookupA (registryVersionsOf inp) name with
  | some versions => versions.any (fun v => matchesReq (applicableReq inp name needed) v)
  | none => false

/-- `missing_deps` (src/main.rs:189-212): the dependencies with no
compatible registry version. -/
def missingDepsOf (inp : PipelineInput) : List (String × Version) :=
  inp.projectDeps.filter (fun nv => !hasCompatibleVersion inp nv.1 nv.2)

/-- `missing_sorted` (src/main.rs:220-221): the missing dependencies
sorted by name. -/
def missingSortedOf (inp : PipelineInput) : List (String × Version) :=
  List.insertionSort (fun a b => strLe a.1 b.1) (missingDepsOf inp)

/-- One `needs_approval` entry (src/main.rs:230-264): the artifact
filename together with its reason string — the generic
"requirement not satisfied" text when the registry knows the name,
"new dependency" otherwise. -/
def approvalEntry (inp : PipelineInput) (nv : String × Version) : String × String :=
  let crateFile := crateFileName nv.1 nv.2
  let reqDisplay :=
    match lookupA inp.cargoRequirements nv.1 with
    | some r => reqToString r
    | none => "^" ++ versionToString nv.2
  match lookupA (registryVersionsOf inp) nv.1 with
  | some versions =>
    (crateFile,
      "requirement \"" ++ reqDisplay ++ "\" not satisfied by registry versions ["
        ++ joinSep ", " (versions.map versionToString) ++ "]")
  | none => (crateFile, "new dependency")

/-- `needs_approval` (src/main.rs:228-264): every missing dependency,
in name order, with its reason. -/
def needsApprovalOf (inp : PipelineInput) : List (String × String) :=
  (missingSortedOf inp).map (approvalEntry inp)

/-- The two reason shapes the program can attach to a gap
(src/main.rs:239-264).  The code distinguishes only whether the
registry knows the name at all; the remaining constructors name the
spec's finer categories and are never produced by the code — they
exist so that claims about those categories can be stated. -/
inductive GapCategory where
  | newDependency
  | notSatisfied
  | downgrade
  | majorUpgrade
  | minorPatchUpgrade
  | unparseable
deriving DecidableEq

/-- The category the code actually assigns to a gap for `name`
(src/main.rs:239-264): `notSatisfied` when the registry has versions of
the name, `newDependency` otherwise. -/
def codeGapCategory (registryVersions : List (String × List Version))
    (name : String) : GapCategory :=
  match lookupA registryVersions name with
  | some _ => .notSatisfied
  | none => .newDependency

/-- The merged registry listing (src/main.rs:288-300): the set union of
the existing raw entries and the missing dependencies' artifact
filenames, sorted.  `insertionSort` models `Vec::sort` (same sorted
result); `dedup` models the `HashSet` union. -/
def mergedList (existing : List String) (missing : List (String × Version)) :
    List String :=
  List.insertionSort strLe
    ((existing ++ missing.map (fun nv => crateFileName nv.1 nv.2)).dedup)

/-- The file content written by the merge loop (src/main.rs:303-309):
each line followed by a newline. -/
def renderLines (lines : List String) : String :=
  String.mk (List.flatten (lines.map (fun s => s.data ++ ['\n'])))

/-- The outcome of one run: the gap list, the approval report, and the
registry content written back (`none` when the file is not opened for
writing). -/
structure PipelineOutput where
  missing : List (String × Version)
  needsApproval : List (String × String)
  written : Option String

/-- One reconciliation run of `main` (src/main.rs:122-317): compute the
gaps; when none exist, return early without touching the file
(src/main.rs:214-217); otherwise report, and rewrite the registry file
only under `--write` (src/main.rs:284-314). -/
def runPipeline (inp : PipelineInput) : PipelineOutput :=
  let missing := missingDepsOf inp
  if missing.isEmpty then
    { missing := missing, needsApproval := [], written := none }
  else
    { missing := missing
      needsApproval := needsApprovalOf inp
      written :=
        if inp.write then
          some (renderLines (mergedList (existingRegistry inp.registryContent) missing))
        else none }

/-- Well-formed build metadata, as `semver::BuildMetadata` guarantees
by construction: every identifier nonempty and over the identifier
alphabet. -/
def BuildWF (build : List String) : Prop :=
  ∀ b ∈ build, b.data ≠ [] ∧ ∀ c ∈ b.data, isIdentChar c = true

/-! # Supporting lemmas -/

theorem takeWhile_eq_self_of_all {p : Char → Bool} :
    ∀ {l : List Char}, (∀ x ∈ l, p x = true) → l.takeWhile p = l
  | [], _ => rfl
  | x :: xs, h => by
    simp only [List.takeWhile_cons, h x (List.mem_cons_self x xs), if_pos]
    exact congrArg (x :: ·) (takeWhile_eq_self_of_all fun y hy => h y (List.mem_cons_of_mem x hy))

theorem takeWhile_append_stop {p : Char → Bool} {y : Char} (hy : p y = false) :
    ∀ {a : List Char} (b : List Char), (∀ x ∈ a, p x = true) →
      (a ++ y :: b).takeWhile p = a
  | [], b, _ => by simp [List.takeWhile_cons, hy]
  | x :: xs, b, h => by
    simp only [List.cons_append, List.takeWhile_cons, h x (List.mem_cons_self x xs), if_pos]
    exact congrArg (x :: ·)
      (takeWhile_append_stop hy b fun z hz => h z (List.mem_cons_of_mem x hz))

theorem splitOnChar_ne_nil (c : Char) : ∀ (l : List Char), splitOnChar c l ≠ []
  | [] => by simp [splitOnChar]
  | x :: xs => by
    simp only [splitOnChar]
    split
    · simp
    · cases h : splitOnChar c xs with
      | nil => simp
      | cons y ys => simp [h]

theorem splitOnChar_of_not_mem {c : Char} :
    ∀ {l : List Char}, c ∉ l → splitOnChar c l = [l]
  | [], _ => rfl
  | x :: xs, h => by
    have hx : ¬x = c := fun e => h (e ▸ List.mem_cons_self x xs)
    have hxs : c ∉ xs := fun hc => h (List.mem_cons_of_mem x hc)
    simp only [splitOnChar, if_neg hx, splitOnChar_of_not_mem hxs]

theorem splitOnChar_append {c : Char} :
    ∀ {a : List Char} (b : List Char), c ∉ a →
      splitOnChar c (a ++ c :: b) = a :: splitOnChar c b
  | [], b, _ => by simp [splitOnChar]
  | x :: xs, b, h => by
    have hx : ¬x = c := fun e => h (e ▸ List.mem_cons_self x xs)
    have hxs : c ∉ xs := fun hc => h (List.mem_cons_of_mem x hc)
    simp only [List.cons_append, splitOnChar, if_neg hx, List.append_eq]
    rw [splitOnChar_append b hxs]

theorem mem_joinCharSep {c x : Char} :
    ∀ {l : List (List Char)}, x ∈ joinCharSep c l → x = c ∨ ∃ id ∈ l, x ∈ id
  | [], h => by simp [joinCharSep] at h
  | [a], h => by
    simp only [joinCharSep] at h
    exact Or.inr ⟨a, List.mem_cons_self a [], h⟩
  | a :: b :: l, h => by
    simp only [joinCharSep, List.mem_append, List.mem_cons] at h
    rcases h with ha | rfl | hrest
    · exact Or.inr ⟨a, List.mem_cons_self a _, ha⟩
    · exact Or.inl rfl
    · rcases mem_joinCharSep hrest with h | ⟨id, hid, hx⟩
      · exact Or.inl h
      · exact Or.inr ⟨id, List.mem_cons_of_mem a hid, hx⟩

theorem splitOnChar_joinCharSep {c : Char} :
    ∀ {l : List (List Char)}, l ≠ [] → (∀ id ∈ l, c ∉ id) →
      splitOnChar c (joinCharSep c l) = l
  | [], h, _ => absurd rfl h
  | [a], _, hids => by
    simp only [joinCharSep]
    exact splitOnChar_of_not_mem (hids a (List.mem_cons_self a []))
  | a :: b :: l, _, hids => by
    simp only [joinCharSep]
    rw [splitOnChar_append _ (hids a (List.mem_cons_self a _))]
    exact congrArg (a :: ·)
      (splitOnChar_joinCharSep (by simp) fun id hid => hids id (List.mem_cons_of_mem a hid))

/-! ## Decimal digit lemmas -/

theorem natDigitsAux_fuel : ∀ {n f : Nat}, n < f →
    natDigitsAux f n = natDigits n := by
  intro n
  induction n using Nat.strong_induction_on with
  | _ n ih =>
    intro f hf
    obtain ⟨g, rfl⟩ : ∃ g, f = g + 1 := ⟨f - 1, by omega⟩
    by_cases h : n < 10
    · simp [natDigitsAux, natDigits, h]
    · have hn : 10 ≤ n := Nat.le_of_not_lt h
      have hdiv : n / 10 < n := Nat.div_lt_self (by omega) (by omega)
      simp only [natDigitsAux, natDigits, if_neg h]
      rw [ih (n / 10) hdiv (by omega), ih (n / 10) hdiv hdiv]

theorem natDigits_lt {n : Nat} (h : n < 10) : natDigits n = [Nat.digitChar n] := by
  simp [natDigits, natDigitsAux, h]

theorem natDigits_ge {n : Nat} (h : 10 ≤ n) :
    natDigits n = natDigits (n / 10) ++ [Nat.digitChar (n % 10)] := by
  have hdiv : n / 10 < n := Nat.div_lt_self (by omega) (by omega)
  conv_lhs => rw [natDigits]
  simp only [natDigitsAux, if_neg (Nat.not_lt.mpr h)]
  rw [natDigitsAux_fuel hdiv]

theorem natDigits_ne_nil (n : Nat) : natDigits n ≠ [] := by
  by_cases h : n < 10
  · simp [natDigits_lt h]
  · simp [natDigits_ge (Nat.le_of_not_lt h)]

theorem digitChar_isDigit {d : Nat} (h : d < 10) : (Nat.digitChar d).isDigit = true := by
  interval_cases d <;> decide

theorem digitChar_toNat {d : Nat} (h : d < 10) : (Nat.digitChar d).toNat = 48 + d := by
  interval_cases d <;> decide

theorem natDigits_all_digit : ∀ {n : Nat}, ∀ c ∈ natDigits n, c.isDigit = true := by
  intro n
  induction n using Nat.strong_induction_on with
  | _ n ih =>
    intro c hc
    by_cases h : n < 10
    · rw [natDigits_lt h] at hc
      simp only [List.mem_singleton] at hc
      exact hc ▸ digitChar_isDigit h
    · have h10 : 10 ≤ n := Nat.le_of_not_lt h
      rw [natDigits_ge h10] at hc
      rcases List.mem_append.mp hc with h1 | h2
      · exact ih (n / 10) (Nat.div_lt_self (by omega) (by omega)) c h1
      · simp only [List.mem_singleton] at h2
        exact h2 ▸ digitChar_isDigit (Nat.mod_lt _ (by omega))

theorem charsToNat_append_digit (a : List Char) (d : Char) :
    charsToNat (a ++ [d]) = 10 * charsToNat a + (d.toNat - 48) := by
  simp [charsToNat, List.foldl_append]

theorem charsToNat_natDigits : ∀ {n : Nat}, charsToNat (natDigits n) = n := by
  intro n
  induction n using Nat.strong_induction_on with
  | _ n ih =>
    by_cases h : n < 10
    · rw [natDigits_lt h]
      simp only [charsToNat, List.foldl_cons, List.foldl_nil]
      rw [digitChar_toNat h]
      omega
    · have h10 : 10 ≤ n := Nat.le_of_not_lt h
      rw [natDigits_ge h10, charsToNat_append_digit,
        ih (n / 10) (Nat.div_lt_self (by omega) (by omega)),
        digitChar_toNat (Nat.mod_lt _ (by omega))]
      omega

theorem natDigits_head_zero : ∀ {n : Nat}, (natDigits n).head? = some '0' → n = 0 := by
  intro n
  induction n using Nat.strong_induction_on with
  | _ n ih =>
    intro h
    by_cases hlt : n < 10
    · rw [natDigits_lt hlt] at h
      simp only [List.head?_cons, Option.some.injEq] at h
      interval_cases n <;> simp_all <;> exact absurd h (by decide)
    · have h10 : 10 ≤ n := Nat.le_of_not_lt hlt
      rw [natDigits_ge h10] at h
      have hne := natDigits_ne_nil (n / 10)
      rw [List.head?_append_of_ne_nil _ hne] at h
      have := ih (n / 10) (Nat.div_lt_self (by omega) (by omega)) h
      omega

theorem parseNumId_natDigits (n : Nat) : parseNumId (natDigits n) = some n := by
  have hne := natDigits_ne_nil n
  cases hd : natDigits n with
  | nil => exact absurd hd hne
  | cons c rest =>
    simp only [parseNumId]
    have hall : (c :: rest).all Char.isDigit = true := by
      rw [List.all_eq_true]
      intro x hx
      exact natDigits_all_digit x (hd ▸ hx)
    rw [if_pos hall]
    have hval : charsToNat (c :: rest) = n := hd ▸ charsToNat_natDigits
    by_cases hzero : c = '0' ∧ rest ≠ []
    · exfalso
      obtain ⟨rfl, hrest⟩ := hzero
      have h0 : n = 0 := natDigits_head_zero (by rw [hd]; rfl)
      subst h0
      rw [natDigits_lt (by omega)] at hd
      simp only [List.cons.injEq] at hd
      exact hrest hd.2.symm
    · rw [if_neg hzero, hval]

/-- A digit is not one of the structural characters. -/
theorem isDigit_ne {c d : Char} (hc : c.isDigit = true) (hd : d.isDigit = false) :
    c ≠ d := by
  intro h
  rw [h, hd] at hc
  exact Bool.false_ne_true hc

/-! ## Association-list lemmas -/

theorem nodup_keys_mem_eq {α : Type} :
    ∀ {l : List (String × α)} {k : String} {a b : α},
      (l.map Prod.fst).Nodup → (k, a) ∈ l → (k, b) ∈ l → a = b
  | [], _, _, _, _, ha, _ => absurd ha (List.not_mem_nil _)
  | (k', c) :: rest, k, a, b, hnd, ha, hb => by
    simp only [List.map_cons, List.nodup_cons] at hnd
    rcases List.mem_cons.mp ha with h1 | h1 <;> rcases List.mem_cons.mp hb with h2 | h2
    · rw [Prod.mk.injEq] at h1 h2
      rw [h1.2, h2.2]
    · exfalso
      rw [Prod.mk.injEq] at h1
      exact hnd.1 (h1.1 ▸ List.mem_map.mpr ⟨(k, b), h2, rfl⟩)
    · exfalso
      rw [Prod.mk.injEq] at h2
      exact hnd.1 (h2.1 ▸ List.mem_map.mpr ⟨(k, a), h1, rfl⟩)
    · exact nodup_keys_mem_eq hnd.2 h1 h2

/-! # Claim theorems -/

/-- C9: the registry file is opened for writing (the model's `written`
is `some`) exactly when the `--write` flag is set and the missing set
is nonempty; in every other case the run leaves the file untouched. -/
theorem write_only_when_flagged_and_missing (inp : PipelineInput) :
    (runPipeline inp).written ≠ none ↔
      inp.write = true ∧ missingDepsOf inp ≠ [] := by
  unfold runPipeline
  by_cases h : (missingDepsOf inp).isEmpty
  · simp only [h, if_pos rfl]
    simp [List.isEmpty_iff.mp h]
  · simp only [h]
    rw [if_neg (by simp [h])]
    by_cases hw : inp.write
    · simp [hw, List.isEmpty_iff] at h ⊢
      exact h
    · simp only [Bool.not_eq_true] at hw
      simp [hw]

/-- C5: a required package whose name has no bucket in the
name-to-versions map yields a gap with reason "new dependency" on the
approval list (src/main.rs:257-264). -/
theorem new_dependency_gap (inp : PipelineInput) (name : String) (v : Version)
    (h1 : (name, v) ∈ inp.projectDeps)
    (h2 : lookupA (registryVersionsOf inp) name = none) :
    (name, v) ∈ missingDepsOf inp ∧
      (crateFileName name v, "new dependency") ∈ needsApprovalOf inp ∧
      codeGapCategory (registryVersionsOf inp) name = GapCategory.newDependency := by
  have hcompat : hasCompatibleVersion inp name v = false := by
    unfold hasCompatibleVersion
    rw [h2]
  have hmiss : (name, v) ∈ missingDepsOf inp :=
    List.mem_filter.mpr ⟨h1, by simp [hcompat]⟩
  refine ⟨hmiss, ?_, ?_⟩
  · have hsorted : (name, v) ∈ missingSortedOf inp :=
      (List.perm_insertionSort _ _).mem_iff.mpr hmiss
    have hentry : approvalEntry inp (name, v) = (crateFileName name v, "new dependency") := by
      unfold approvalEntry
      rw [h2]
    exact hentry ▸ List.mem_map_of_mem (approvalEntry inp) hsorted
  · unfold codeGapCategory
    rw [h2]

/-- C5 witness: `tokio` 1.38.0 against an empty inventory. -/
theorem new_dependency_gap_witness :
    ("tokio", (⟨1, 38, 0, [], []⟩ : Version)) ∈
        missingDepsOf ⟨[("tokio", ⟨1, 38, 0, [], []⟩)], [], "", false⟩ ∧
      (crateFileName "tokio" ⟨1, 38, 0, [], []⟩, "new dependency") ∈
        needsApprovalOf ⟨[("tokio", ⟨1, 38, 0, [], []⟩)], [], "", false⟩ ∧
      codeGapCategory (registryVersionsOf ⟨[("tokio", ⟨1, 38, 0, [], []⟩)], [], "", false⟩)
          "tokio" = GapCategory.newDependency :=
  new_dependency_gap _ "tokio" ⟨1, 38, 0, [], []⟩ (by decide) (by decide)

/-- C4: a required package some inventory version of which matches the
applicable requirement produces no gap at all (src/main.rs:203-212):
it is filtered out of `missing_deps`, and every approval entry stems
from a missing dependency of a different name. -/
theorem satisfied_no_gap (inp : PipelineInput) (name : String) (needed : Version)
    (vs : List Version)
    (hnd : (inp.projectDeps.map Prod.fst).Nodup)
    (h1 : (name, needed) ∈ inp.projectDeps)
    (h2 : lookupA (registryVersionsOf inp) name = some vs)
    (h3 : ∃ v ∈ vs, matchesReq (applicableReq inp name needed) v = true) :
    (∀ v', (name, v') ∉ missingDepsOf inp) ∧
      ∀ e ∈ needsApprovalOf inp, ∃ nv, nv ∈ missingDepsOf inp ∧
        e = approvalEntry inp nv ∧ nv.1 ≠ name := by
  have hcompat : hasCompatibleVersion inp name needed = true := by
    unfold hasCompatibleVersion
    rw [h2]
    exact List.any_eq_true.mpr h3
  have hnotmiss : ∀ v', (name, v') ∉ missingDepsOf inp := by
    intro v' hmem
    have hfil := List.mem_filter.mp hmem
    have hv' : v' = needed := nodup_keys_mem_eq hnd hfil.1 h1
    subst hv'
    rw [hcompat] at hfil
    simp at hfil
  refine ⟨hnotmiss, ?_⟩
  intro e he
  obtain ⟨nv, hnv, rfl⟩ := List.mem_map.mp he
  have hnvmiss : nv ∈ missingDepsOf inp :=
    (List.perm_insertionSort _ _).mem_iff.mp hnv
  refine ⟨nv, hnvmiss, rfl, ?_⟩
  intro hname
  exact hnotmiss nv.2 (by rw [← hname]; exact hnvmiss)

/-- C4 witness: `bar-1.2.3.crate` satisfies the declared requirement
`^1.2.0` for resolved version 1.2.5, so no gap is reported. -/
theorem satisfied_no_gap_witness :
    (∀ v', ("bar", v') ∉ missingDepsOf
        ⟨[("bar", ⟨1, 2, 5, [], []⟩)], [("bar", [⟨.caret, 1, some 2, some 0, []⟩])],
          "bar-1.2.3.crate", false⟩) ∧
      ∀ e ∈ needsApprovalOf
        ⟨[("bar", ⟨1, 2, 5, [], []⟩)], [("bar", [⟨.caret, 1, some 2, some 0, []⟩])],
          "bar-1.2.3.crate", false⟩,
        ∃ nv, nv ∈ missingDepsOf
          ⟨[("bar", ⟨1, 2, 5, [], []⟩)], [("bar", [⟨.caret, 1, some 2, some 0, []⟩])],
            "bar-1.2.3.crate", false⟩ ∧
          e = approvalEntry
            ⟨[("bar", ⟨1, 2, 5, [], []⟩)], [("bar", [⟨.caret, 1, some 2, some 0, []⟩])],
              "bar-1.2.3.crate", false⟩ nv ∧ nv.1 ≠ "bar" :=
  satisfied_no_gap _ "bar" ⟨1, 2, 5, [], []⟩ [⟨1, 2, 3, [], []⟩]
    (by decide) (by decide) (by decide) (by decide)

/-- Folding the registry-map construction ignores unparseable lines. -/
theorem buildRegistryVersions_foldl_filter (lines : List String) :
    ∀ acc : List (String × List Version),
      lines.foldl
        (fun acc line =>
          match parseCrateNameVersion line with
          | some (n, v) => insertVersion acc n v
          | none => acc) acc =
      (lines.filter (fun l => (parseCrateNameVersion l).isSome)).foldl
        (fun acc line =>
          match parseCrateNameVersion line with
          | some (n, v) => insertVersion acc n v
          | none => acc) acc := by
  induction lines with
  | nil => intro acc; rfl
  | cons x xs ih =>
    intro acc
    cases hx : parseCrateNameVersion x with
    | none => simp [List.filter_cons, hx, ih]
    | some nv => simp [List.filter_cons, hx, ih]

/-- C10: a line that does not end in `.crate` is rejected by the
filename parser; rejected lines never populate the name-to-versions
map; and every generated artifact filename ends in `.crate`. -/
theorem crate_suffix_discipline :
    (∀ s : String, crateSuffix.isSuffixOf s.data = false →
        parseCrateNameVersion s = none) ∧
      (∀ lines : List String,
        buildRegistryVersions lines =
          buildRegistryVersions
            (lines.filter (fun l => (parseCrateNameVersion l).isSome))) ∧
      ∀ (name : String) (v : Version),
        crateSuffix.isSuffixOf (crateFileName name v).data = true := by
  refine ⟨?_, ?_, ?_⟩
  · intro s h
    unfold parseCrateNameVersion stripCrateSuffix
    rw [h]
    simp
  · intro lines
    exact buildRegistryVersions_foldl_filter lines []
  · intro name v
    apply List.isSuffixOf_iff_suffix.mpr
    refine ⟨name.data ++ '-' :: versionChars v, ?_⟩
    simp [crateFileName, List.append_assoc]

/-- C10 witness: a differently-extensioned line is rejected. -/
theorem crate_suffix_discipline_witness :
    parseCrateNameVersion "serde-1.0.0.zip" = none :=
  crate_suffix_discipline.1 "serde-1.0.0.zip" (by decide)

theorem foldl_max_mem :
    ∀ (xs : List Version) (x : Version),
      xs.foldl (fun a b => if versionLtB a b then b else a) x ∈ x :: xs
  | [], x => List.mem_singleton.mpr rfl
  | y :: ys, x => by
    have h := foldl_max_mem ys (if versionLtB x y then y else x)
    simp only [List.foldl_cons]
    rcases List.mem_cons.mp h with h | h
    · rw [h]
      split
      · exact List.mem_cons_of_mem x (List.mem_cons_self y ys)
      · exact List.mem_cons_self x (y :: ys)
    · exact List.mem_cons_of_mem x (List.mem_cons_of_mem y h)

theorem latestVersion_mem {l : List Version} (h : l ≠ []) : latestVersion l ∈ l := by
  match l with
  | x :: xs => exact foldl_max_mem xs x

theorem joinSep_substring {sep a : String} :
    ∀ {l : List String}, a ∈ l →
      ∃ p q : List Char, (joinSep sep l).data = p ++ a.data ++ q := by
  intro l
  match l with
  | [] => intro h; exact absurd h (List.not_mem_nil a)
  | [x] =>
    intro h
    rw [List.mem_singleton.mp h]
    exact ⟨[], [], by simp [joinSep]⟩
  | x :: y :: ys =>
    intro h
    rcases List.mem_cons.mp h with rfl | h
    · exact ⟨[], sep.data ++ (joinSep sep (y :: ys)).data,
        by simp [joinSep, String.data_append, List.append_assoc]⟩
    · obtain ⟨p, q, hpq⟩ := joinSep_substring h
      refine ⟨x.data ++ sep.data ++ p, q, ?_⟩
      show (x ++ sep ++ joinSep sep (y :: ys)).data = _
      simp only [String.data_append]
      rw [hpq]
      simp [List.append_assoc]

/-- C2 counterexample: inventory `foo-2.0.0.crate`, required version
1.9.0.  The requirement is unsatisfied and 1.9.0 is smaller than the
latest available 2.0.0, but the code produces the generic
"requirement not satisfied" entry — there is no Downgrade category. -/
theorem downgrade_category_counterexample :
    lookupA (registryVersionsOf
        ⟨[("foo", ⟨1, 9, 0, [], []⟩)], [], "foo-2.0.0.crate", false⟩) "foo" =
      some [⟨2, 0, 0, [], []⟩] ∧
    versionLtB ⟨1, 9, 0, [], []⟩ (latestVersion [⟨2, 0, 0, [], []⟩]) = true ∧
    needsApprovalOf ⟨[("foo", ⟨1, 9, 0, [], []⟩)], [], "foo-2.0.0.crate", false⟩ =
      [("foo-1.9.0.crate",
        "requirement \"^1.9.0\" not satisfied by registry versions [2.0.0]")] ∧
    codeGapCategory (registryVersionsOf
        ⟨[("foo", ⟨1, 9, 0, [], []⟩)], [], "foo-2.0.0.crate", false⟩) "foo" ≠
      GapCategory.downgrade := by
  decide

/-- C2 as the code has it: a required package with known name but no
satisfying version — in particular one whose required version is
smaller than the latest available — yields an approval entry whose
reason string contains the latest available version (it lists every
registry version of the name); its category is the generic
`notSatisfied`, not a distinct Downgrade. -/
theorem unsatisfied_reason_lists_latest (inp : PipelineInput) (name : String)
    (needed : Version) (vs : List Version)
    (h1 : (name, needed) ∈ inp.projectDeps)
    (h2 : lookupA (registryVersionsOf inp) name = some vs)
    (hne : vs ≠ [])
    (h3 : ∀ v ∈ vs, matchesReq (applicableReq inp name needed) v = false)
    (_hlt : versionLtB needed (latestVersion vs) = true) :
    ∃ reason, (crateFileName name needed, reason) ∈ needsApprovalOf inp ∧
      (∃ p q, reason.data = p ++ (versionToString (latestVersion vs)).data ++ q) ∧
      codeGapCategory (registryVersionsOf inp) name = GapCategory.notSatisfied := by
  have hcompat : hasCompatibleVersion inp name needed = false := by
    unfold hasCompatibleVersion
    rw [h2]
    exact List.any_eq_false.mpr (by simpa using h3)
  have hmiss : (name, needed) ∈ missingDepsOf inp :=
    List.mem_filter.mpr ⟨h1, by simp [hcompat]⟩
  have hsorted : (name, needed) ∈ missingSortedOf inp :=
    (List.perm_insertionSort _ _).mem_iff.mpr hmiss
  have hentry :
      approvalEntry inp (name, needed) =
        (crateFileName name needed,
          "requirement \""
            ++ (match lookupA inp.cargoRequirements name with
                | some r => reqToString r
                | none => "^" ++ versionToString needed)
            ++ "\" not satisfied by registry versions ["
            ++ joinSep ", " (vs.map versionToString) ++ "]") := by
    unfold approvalEntry
    rw [h2]
  refine ⟨_, hentry ▸ List.mem_map_of_mem (approvalEntry inp) hsorted, ?_, ?_⟩
  · have hmem : versionToString (latestVersion vs) ∈ vs.map versionToString :=
      List.mem_map_of_mem versionToString (latestVersion_mem hne)
    obtain ⟨p, q, hpq⟩ := joinSep_substring hmem
    refine ⟨("requirement \""
        ++ (match lookupA inp.cargoRequirements name with
            | some r => reqToString r
            | none => "^" ++ versionToString needed)
        ++ "\" not satisfied by registry versions [").data ++ p,
      q ++ ("]" : String).data, ?_⟩
    simp only [String.data_append]
    rw [hpq]
    simp [List.append_assoc]
  · unfold codeGapCategory
    rw [h2]

/-- C2 amended witness: the `foo-2.0.0.crate` versus required 1.9.0
scenario run through the theorem. -/
theorem unsatisfied_reason_lists_latest_witness :
    ∃ reason,
      (crateFileName "foo" ⟨1, 9, 0, [], []⟩, reason) ∈
        needsApprovalOf ⟨[("foo", ⟨1, 9, 0, [], []⟩)], [], "foo-2.0.0.crate", false⟩ ∧
      (∃ p q, reason.data =
        p ++ (versionToString (latestVersion [⟨2, 0, 0, [], []⟩])).data ++ q) ∧
      codeGapCategory (registryVersionsOf
          ⟨[("foo", ⟨1, 9, 0, [], []⟩)], [], "foo-2.0.0.crate", false⟩) "foo" =
        GapCategory.notSatisfied :=
  unsatisfied_reason_lists_latest _ "foo" ⟨1, 9, 0, [], []⟩ [⟨2, 0, 0, [], []⟩]
    (by decide) (by decide) (by decide) (by decide) (by decide)

/-- C3 counterexample: inventory `foo-1.0.0.crate`, required version
1.0.1 — the spec's MinorPatchUpgrade shape (same major as the latest
available version, not a downgrade, only the patch differs) — yet the
gap is placed on the approval list. -/
theorem minor_patch_no_approval_counterexample :
    lookupA (registryVersionsOf
        ⟨[("foo", ⟨1, 0, 1, [], []⟩)], [], "foo-1.0.0.crate", false⟩) "foo" =
      some [⟨1, 0, 0, [], []⟩] ∧
    (⟨1, 0, 1, [], []⟩ : Version).major = (latestVersion [⟨1, 0, 0, [], []⟩]).major ∧
    versionLtB ⟨1, 0, 1, [], []⟩ (latestVersion [⟨1, 0, 0, [], []⟩]) = false ∧
    (⟨1, 0, 1, [], []⟩ : Version).patch ≠ (latestVersion [⟨1, 0, 0, [], []⟩]).patch ∧
    needsApprovalOf ⟨[("foo", ⟨1, 0, 1, [], []⟩)], [], "foo-1.0.0.crate", false⟩ =
      [("foo-1.0.1.crate",
        "requirement \"^1.0.1\" not satisfied by registry versions [1.0.0]")] := by
  decide

/-- C3 amended: the approval list is not a partition by category —
every produced gap entry lands on it, one entry per missing dependency;
the code has no safe (MinorPatchUpgrade) list. -/
theorem all_gaps_require_approval (inp : PipelineInput) :
    (needsApprovalOf inp).length = (missingDepsOf inp).length ∧
      (∀ nv ∈ missingDepsOf inp, approvalEntry inp nv ∈ needsApprovalOf inp) ∧
      ∀ e ∈ needsApprovalOf inp,
        ∃ nv ∈ missingDepsOf inp, e = approvalEntry inp nv := by
  refine ⟨?_, ?_, ?_⟩
  · unfold needsApprovalOf
    rw [List.length_map]
    exact (List.perm_insertionSort _ _).length_eq
  · intro nv hnv
    exact List.mem_map_of_mem (approvalEntry inp)
      ((List.perm_insertionSort _ _).mem_iff.mpr hnv)
  · intro e he
    obtain ⟨nv, hnv, rfl⟩ := List.mem_map.mp he
    exact ⟨nv, (List.perm_insertionSort _ _).mem_iff.mp hnv, rfl⟩

/-- C3 amended witness: the MinorPatchUpgrade-shaped gap of the
counterexample is on the approval list. -/
theorem all_gaps_require_approval_witness :
    approvalEntry ⟨[("foo", ⟨1, 0, 1, [], []⟩)], [], "foo-1.0.0.crate", false⟩
        ("foo", ⟨1, 0, 1, [], []⟩) ∈
      needsApprovalOf ⟨[("foo", ⟨1, 0, 1, [], []⟩)], [], "foo-1.0.0.crate", false⟩ :=
  (all_gaps_require_approval _).2.1 ("foo", ⟨1, 0, 1, [], []⟩) (by decide)

theorem then_lex_lt {a d b e c f : Nat} :
    (compare a d).then ((compare b e).then ((compare c f).then Ordering.eq)) =
        Ordering.lt ↔
      a < d ∨ (a = d ∧ (b < e ∨ (b = e ∧ c < f))) := by
  rcases Nat.lt_trichotomy a d with h | h | h
  · rw [Nat.compare_eq_lt.mpr h]
    exact iff_of_true rfl (Or.inl h)
  · subst h
    rw [Nat.compare_eq_eq.mpr rfl]
    rcases Nat.lt_trichotomy b e with h | h | h
    · rw [Nat.compare_eq_lt.mpr h]
      exact iff_of_true rfl (Or.inr ⟨rfl, Or.inl h⟩)
    · subst h
      rw [Nat.compare_eq_eq.mpr rfl]
      rcases Nat.lt_trichotomy c f with h | h | h
      · rw [Nat.compare_eq_lt.mpr h]
        exact iff_of_true rfl (Or.inr ⟨rfl, Or.inr ⟨rfl, h⟩⟩)
      · subst h
        rw [Nat.compare_eq_eq.mpr rfl]
        exact iff_of_false (by simp [Ordering.then]) (by omega)
      · rw [Nat.compare_eq_gt.mpr h]
        exact iff_of_false (by simp [Ordering.then]) (by omega)
    · rw [Nat.compare_eq_gt.mpr h]
      exact iff_of_false (by simp [Ordering.then]) (by omega)
  · rw [Nat.compare_eq_gt.mpr h]
    exact iff_of_false (by simp [Ordering.then]) (by omega)

/-- C6 counterexample: the synthesized caret requirement for resolved
version 2.0.0 does not accept 2.0.1-alpha, a version with the same
leading non-zero component that is not smaller than 2.0.0 — so the
requirement does not accept exactly that set.  The concrete 1.0.0
rejection of the claim does hold. -/
theorem synthesized_caret_counterexample :
    applicableReq ⟨[("serde", ⟨2, 0, 0, [], []⟩)], [], "serde-1.0.0.crate", false⟩
        "serde" ⟨2, 0, 0, [], []⟩ = synthesizedReq ⟨2, 0, 0, [], []⟩ ∧
    matchesReq (synthesizedReq ⟨2, 0, 0, [], []⟩) ⟨1, 0, 0, [], []⟩ = false ∧
    (⟨2, 0, 1, [.alphanum "alpha"], []⟩ : Version).major =
      (⟨2, 0, 0, [], []⟩ : Version).major ∧
    (⟨2, 0, 0, [], []⟩ : Version).major ≠ 0 ∧
    versionLtB ⟨2, 0, 1, [.alphanum "alpha"], []⟩ ⟨2, 0, 0, [], []⟩ = false ∧
    matchesReq (synthesizedReq ⟨2, 0, 0, [], []⟩)
      ⟨2, 0, 1, [.alphanum "alpha"], []⟩ = false := by
  decide

/-- C6 amended: for a resolved version and a candidate version without
pre-release parts (and no build metadata on the resolved version), the
synthesized caret requirement accepts the candidate exactly when it
keeps the resolved version's leading non-zero component (equal major;
equal minor too when major is 0; equal patch too when major and minor
are 0) and is not smaller than the resolved version.  Pre-release
candidates are rejected even inside that set. -/
theorem synthesized_caret_characterization (r v : Version)
    (hrp : r.pre = []) (hrb : r.build = []) (hvp : v.pre = []) :
    matchesReq (synthesizedReq r) v = true ↔
      v.major = r.major ∧ (r.major = 0 → v.minor = r.minor) ∧
        (r.major = 0 → r.minor = 0 → v.patch = r.patch) ∧
        versionLtB v r = false := by
  obtain ⟨vM, vm, vp, vpre, vb⟩ := v
  obtain ⟨rM, rm, rp, rpre, rb⟩ := r
  simp only at hrp hvp
  subst hrp hvp
  have hlt : versionLtB ⟨vM, vm, vp, [], vb⟩ ⟨rM, rm, rp, [], rb⟩ = true ↔
      vM < rM ∨ (vM = rM ∧ (vm < rm ∨ (vm = rm ∧ vp < rp))) := by
    unfold versionLtB cmpVersion
    simp only [cmpPre]
    rw [← then_lex_lt (a := vM) (d := rM) (b := vm) (e := rm) (c := vp) (f := rp)]
    split <;> rename_i h
    · simp [h]
    · simp [h]
      exact h
  have hltf : versionLtB ⟨vM, vm, vp, [], vb⟩ ⟨rM, rm, rp, [], rb⟩ = false ↔
      ¬(vM < rM ∨ (vM = rM ∧ (vm < rm ∨ (vm = rm ∧ vp < rp)))) := by
    rw [← hlt]
    cases versionLtB ⟨vM, vm, vp, [], vb⟩ ⟨rM, rm, rp, [], rb⟩ <;> simp
  rw [show (⟨vM, vm, vp, [], vb⟩ : Version).major = vM from rfl,
    show (⟨rM, rm, rp, [], rb⟩ : Version).major = rM from rfl,
    show (⟨vM, vm, vp, [], vb⟩ : Version).minor = vm from rfl,
    show (⟨rM, rm, rp, [], rb⟩ : Version).minor = rm from rfl,
    show (⟨vM, vm, vp, [], vb⟩ : Version).patch = vp from rfl,
    show (⟨rM, rm, rp, [], rb⟩ : Version).patch = rp from rfl, hltf]
  simp only [matchesReq, synthesizedReq, matchesImpl, List.all_cons, List.all_nil,
    Bool.and_true, List.isEmpty_nil, Bool.true_or, matchesCaret, preGe, cmpPre]
  split_ifs <;>
    simp only [decide_eq_true_eq, Bool.false_eq_true, false_iff, true_iff, ne_eq,
      not_or, not_and, not_lt, gt_iff_lt, not_not, Nat.pos_iff_ne_zero] at * <;>
    omega

theorem compareChars_swap : ∀ (a b : List Char),
    compareChars a b = (compareChars b a).swap
  | [], [] => rfl
  | [], _ :: _ => rfl
  | _ :: _, [] => rfl
  | x :: xs, y :: ys => by
    simp only [compareChars, Ordering.swap_then, Nat.compare_swap,
      compareChars_swap xs ys]

theorem compareChars_le_trans :
    ∀ {a b c : List Char}, compareChars a b ≠ .gt → compareChars b c ≠ .gt →
      compareChars a c ≠ .gt
  | [], _, c, _, _ => by cases c <;> simp [compareChars]
  | _ :: _, [], _, hab, _ => absurd rfl hab
  | _ :: _, _ :: _, [], _, hbc => absurd rfl hbc
  | x :: xs, y :: ys, z :: zs, hab, hbc => by
    simp only [compareChars] at hab hbc ⊢
    rcases Nat.lt_trichotomy x.toNat y.toNat with h₁ | h₁ | h₁ <;>
      rcases Nat.lt_trichotomy y.toNat z.toNat with h₂ | h₂ | h₂
    all_goals
      first
      | (rw [Nat.compare_eq_gt.mpr (by omega)] at hab; exact absurd rfl hab)
      | (rw [Nat.compare_eq_gt.mpr (by omega)] at hbc; exact absurd rfl hbc)
      | (rw [Nat.compare_eq_lt.mpr (by omega)]; simp [Ordering.then])
      | skip
    · rw [Nat.compare_eq_eq.mpr (by omega)] at hab hbc
      rw [Nat.compare_eq_eq.mpr (by omega)]
      simp only [Ordering.then] at hab hbc ⊢
      exact compareChars_le_trans hab hbc

theorem strLe_total (a b : String) : strLe a b ∨ strLe b a := by
  unfold strLe strLeB
  rcases h : compareChars a.data b.data with h' | h' | h'
  · left; rfl
  · left; rfl
  · right
    rw [compareChars_swap b.data a.data, h]
    rfl

theorem strLe_trans {a b c : String} (hab : strLe a b) (hbc : strLe b c) :
    strLe a c := by
  unfold strLe strLeB at hab hbc ⊢
  have h₁ : compareChars a.data b.data ≠ .gt := by
    intro h; rw [h] at hab; exact Bool.false_ne_true hab
  have h₂ : compareChars b.data c.data ≠ .gt := by
    intro h; rw [h] at hbc; exact Bool.false_ne_true hbc
  have h₃ := compareChars_le_trans h₁ h₂
  rcases h : compareChars a.data c.data with h' | h' | h'
  · rfl
  · rfl
  · exact absurd h h₃

/-- C7: the merged listing written back in `--write` mode is the
union of the prior raw inventory entries (trimmed nonblank lines,
parseable or not, passed through unchanged) and the missing
dependencies' artifact filenames, sorted with no duplicates; every
prior entry appears in it, so nothing is ever removed. -/
theorem merge_union_sorted_superset (inp : PipelineInput) :
    (inp.write = true → missingDepsOf inp ≠ [] →
      (runPipeline inp).written = some (renderLines
        (mergedList (existingRegistry inp.registryContent) (missingDepsOf inp)))) ∧
    (∀ s, s ∈ mergedList (existingRegistry inp.registryContent) (missingDepsOf inp) ↔
      s ∈ existingRegistry inp.registryContent ∨
        s ∈ (missingDepsOf inp).map (fun nv => crateFileName nv.1 nv.2)) ∧
    List.Sorted strLe
      (mergedList (existingRegistry inp.registryContent) (missingDepsOf inp)) ∧
    (mergedList (existingRegistry inp.registryContent) (missingDepsOf inp)).Nodup ∧
    ∀ s ∈ existingRegistry inp.registryContent,
      s ∈ mergedList (existingRegistry inp.registryContent) (missingDepsOf inp) := by
  have hmem : ∀ s,
      s ∈ mergedList (existingRegistry inp.registryContent) (missingDepsOf inp) ↔
        s ∈ existingRegistry inp.registryContent ∨
          s ∈ (missingDepsOf inp).map (fun nv => crateFileName nv.1 nv.2) := by
    intro s
    unfold mergedList
    rw [(List.perm_insertionSort _ _).mem_iff, List.mem_dedup, List.mem_append]
  refine ⟨?_, hmem, ?_, ?_, ?_⟩
  · intro hw hne
    unfold runPipeline
    rw [if_neg (by simp [List.isEmpty_iff, hne])]
    simp [hw]
  · haveI : IsTotal String strLe := ⟨strLe_total⟩
    haveI : IsTrans String strLe := ⟨fun _ _ _ => strLe_trans⟩
    exact List.sorted_insertionSort strLe _
  · unfold mergedList
    exact ((List.perm_insertionSort _ _).symm).nodup (List.nodup_dedup _)
  · intro s hs
    exact (hmem s).mpr (Or.inl hs)

/-- C7 witness: a malformed line (`junk line`) of the prior inventory
survives the merge. -/
theorem merge_union_sorted_superset_witness :
    "junk line" ∈ mergedList
      (existingRegistry "junk line\nfoo-1.0.0.crate\n")
      (missingDepsOf
        ⟨[("a", ⟨1, 0, 0, [], []⟩)], [], "junk line\nfoo-1.0.0.crate\n", true⟩) :=
  (merge_union_sorted_superset
      ⟨[("a", ⟨1, 0, 0, [], []⟩)], [], "junk line\nfoo-1.0.0.crate\n", true⟩).2.2.2.2
    "junk line" (by decide)

theorem splitLines_renderLines :
    ∀ {l : List String}, (∀ s ∈ l, '\n' ∉ s.data) →
      splitLines (renderLines l) = l ++ [""]
  | [], _ => rfl
  | x :: xs, h => by
    unfold splitLines renderLines
    simp only [List.map_cons, List.flatten_cons, List.append_assoc,
      List.singleton_append]
    rw [splitOnChar_append _ (h x (List.mem_cons_self x xs))]
    simp only [List.map_cons]
    have ih := splitLines_renderLines (l := xs)
      (fun s hs => h s (List.mem_cons_of_mem x hs))
    unfold splitLines renderLines at ih
    rw [ih]
    exact rfl

/-- C8: merging an already-merged inventory (sorted, deduplicated
lines, already trimmed, nonblank) with an empty accepted set rewrites
the file with byte-identical content. -/
theorem merge_idempotent (l : List String)
    (hsorted : List.Sorted strLe l) (hnodup : l.Nodup)
    (htrim : ∀ s ∈ l, trimStr s = s) (hne : ∀ s ∈ l, s ≠ "")
    (hnl : ∀ s ∈ l, '\n' ∉ s.data) :
    renderLines (mergedList (existingRegistry (renderLines l)) []) = renderLines l := by
  have hex : existingRegistry (renderLines l) = l := by
    unfold existingRegistry
    rw [splitLines_renderLines hnl]
    rw [List.map_append, (List.map_congr_left (g := id) htrim).trans (List.map_id l)]
    have htrim0 : List.map trimStr [""] = [""] := rfl
    rw [htrim0, List.filter_append]
    rw [List.filter_eq_self.mpr (by
      intro a ha
      simpa using hne a ha)]
    have hfil0 : List.filter (fun l => l ≠ "") [""] = [] := rfl
    rw [hfil0, List.append_nil, List.dedup_eq_self.mpr hnodup]
  rw [hex]
  unfold mergedList
  simp only [List.map_nil, List.append_nil]
  rw [List.dedup_eq_self.mpr hnodup, List.Sorted.insertionSort_eq hsorted]

/-- C8 witness: a two-line sorted inventory round-trips byte for
byte. -/
theorem merge_idempotent_witness :
    renderLines (mergedList
        (existingRegistry (renderLines ["a-1.0.0.crate", "b-2.0.0.crate"])) []) =
      renderLines ["a-1.0.0.crate", "b-2.0.0.crate"] :=
  merge_idempotent ["a-1.0.0.crate", "b-2.0.0.crate"]
    (by decide) (by decide) (by decide) (by decide) (by decide)

theorem corePred_of_digit {c : Char} (h : c.isDigit = true) :
    (c != '-' && c != '+') = true := by
  have h1 : c ≠ '-' := isDigit_ne h (by decide)
  have h2 : c ≠ '+' := isDigit_ne h (by decide)
  simp [bne_iff_ne, h1, h2]

theorem dot_not_mem_natDigits (n : Nat) : '.' ∉ natDigits n := by
  intro h
  have := natDigits_all_digit '.' h
  exact absurd this (by decide)

theorem dash_not_mem_natDigits (n : Nat) : '-' ∉ natDigits n := by
  intro h
  have := natDigits_all_digit '-' h
  exact absurd this (by decide)

theorem splitOnChar_core (a b c : Nat) :
    splitOnChar '.' (natDigits a ++ '.' :: (natDigits b ++ '.' :: natDigits c)) =
      [natDigits a, natDigits b, natDigits c] := by
  rw [splitOnChar_append _ (dot_not_mem_natDigits a),
    splitOnChar_append _ (dot_not_mem_natDigits b),
    splitOnChar_of_not_mem (dot_not_mem_natDigits c)]

theorem corePred_core {x : Char} {a b c : Nat}
    (hx : x ∈ natDigits a ++ '.' :: (natDigits b ++ '.' :: natDigits c)) :
    (x != '-' && x != '+') = true := by
  simp only [List.mem_append, List.mem_cons] at hx
  rcases hx with h | h | h | h | h
  · exact corePred_of_digit (natDigits_all_digit x h)
  · rw [h]; decide
  · exact corePred_of_digit (natDigits_all_digit x h)
  · rw [h]; decide
  · exact corePred_of_digit (natDigits_all_digit x h)

theorem parseAll_map_buildId :
    ∀ {build : List String}, BuildWF build →
      parseAll parseBuildId (build.map String.data) = some build
  | [], _ => rfl
  | b :: bs, h => by
    have hb := h b (List.mem_cons_self b bs)
    have hbs := parseAll_map_buildId (fun x hx => h x (List.mem_cons_of_mem b hx))
    simp only [List.map_cons, parseAll, hbs]
    unfold parseBuildId
    rw [if_pos ⟨hb.1, List.all_eq_true.mpr hb.2⟩]

theorem dash_not_mem_versionChars {v : Version} (hpre : v.pre = [])
    (hdash : ∀ b ∈ v.build, '-' ∉ b.data) : '-' ∉ versionChars v := by
  intro h
  unfold versionChars at h
  rw [hpre, if_pos rfl, List.append_nil] at h
  rcases List.mem_append.mp h with h1 | hq
  · rcases List.mem_append.mp h1 with h2 | h3
    · rcases List.mem_append.mp h2 with ha | hb'
      · exact dash_not_mem_natDigits _ ha
      · rcases List.mem_cons.mp hb' with hd | hd
        · exact absurd hd (by decide)
        · exact dash_not_mem_natDigits _ hd
    · rcases List.mem_cons.mp h3 with hd | hd
      · exact absurd hd (by decide)
      · exact dash_not_mem_natDigits _ hd
  · by_cases hb : v.build = []
    · rw [if_pos hb] at hq
      exact absurd hq (List.not_mem_nil _)
    · rw [if_neg hb] at hq
      rcases List.mem_cons.mp hq with hd | hd
      · exact absurd hd (by decide)
      · rcases mem_joinCharSep hd with hd' | ⟨id, hid, hmem⟩
        · exact absurd hd' (by decide)
        · obtain ⟨b, hbmem, rfl⟩ := List.mem_map.mp hid
          exact hdash b hbmem hmem

/-- Printing then parsing a version whose pre-release part is empty
(and whose build identifiers are well formed) recovers it. -/
theorem parseChars_versionChars (v : Version) (hpre : v.pre = [])
    (hwf : BuildWF v.build) :
    Version.parseChars (versionChars v) = some v := by
  obtain ⟨mj, mi, pa, pre, build⟩ := v
  simp only at hpre
  subst hpre
  by_cases hb : build = []
  · subst hb
    have hvc : versionChars ⟨mj, mi, pa, [], []⟩ =
        natDigits mj ++ '.' :: (natDigits mi ++ '.' :: natDigits pa) := by
      simp [versionChars, List.append_assoc]
    rw [hvc]
    simp only [Version.parseChars]
    rw [takeWhile_eq_self_of_all (fun x hx => corePred_core hx)]
    rw [List.drop_length]
    rw [splitOnChar_core]
    simp only [parseNumId_natDigits]
  · have hvc : versionChars ⟨mj, mi, pa, [], build⟩ =
        (natDigits mj ++ '.' :: (natDigits mi ++ '.' :: natDigits pa)) ++
          '+' :: joinCharSep '.' (build.map String.data) := by
      simp [versionChars, if_neg hb, List.append_assoc]
    rw [hvc]
    simp only [Version.parseChars]
    rw [takeWhile_append_stop (by decide) _ (fun x hx => corePred_core hx)]
    rw [List.drop_left]
    rw [splitOnChar_core]
    have hids : splitOnChar '.' (joinCharSep '.' (build.map String.data)) =
        build.map String.data := by
      apply splitOnChar_joinCharSep
      · simp [hb]
      · intro id hid hdot
        obtain ⟨b', hb', rfl⟩ := List.mem_map.mp hid
        have := (hwf b' hb').2 '.' hdot
        exact absurd this (by decide)
    simp only [parseNumId_natDigits, hids, parseAll_map_buildId hwf]

theorem stripCrateSuffix_append (a : List Char) :
    stripCrateSuffix (a ++ crateSuffix) = some a := by
  unfold stripCrateSuffix
  rw [if_pos (List.isSuffixOf_iff_suffix.mpr ⟨a, rfl⟩)]
  have hlen : (a ++ crateSuffix).length - 6 = a.length := by
    simp [List.length_append, crateSuffix]
  rw [hlen, List.take_left]

theorem splitAtLastDash_append (a b : List Char) (hb : '-' ∉ b) :
    splitAtLastDash (a ++ '-' :: b) = some (a, b) := by
  unfold splitAtLastDash
  have hrev : (a ++ '-' :: b).reverse = b.reverse ++ '-' :: a.reverse := by
    simp [List.reverse_append]
  rw [hrev]
  rw [takeWhile_append_stop (by decide) _ (fun x hx => by
    have : x ≠ '-' := fun e => hb (e ▸ List.mem_reverse.mp hx)
    simp [bne_iff_ne, this])]
  rw [List.reverse_reverse]
  have hlen : (a ++ '-' :: b).length = a.length + 1 + b.length := by
    simp [List.length_append]
    omega
  rw [if_neg (by rw [hlen]; omega)]
  have harith : (a ++ '-' :: b).length - b.length - 1 = a.length := by
    rw [hlen]; omega
  rw [harith, List.take_left]

/-- C1 counterexample: formatting the package id (`foo`, 1.0.0-alpha)
— a valid semantic version with a pre-release component — and parsing
the result yields `none`, not the package id: the parser splits at the
last dash, which lands inside the pre-release part. -/
theorem format_parse_round_trip_counterexample :
    crateFileName "foo" ⟨1, 0, 0, [.alphanum "alpha"], []⟩ =
        "foo-1.0.0-alpha.crate" ∧
      parseCrateNameVersion "foo-1.0.0-alpha.crate" = none := by
  decide

/-- C1 amended: formatting a package id as `<name>-<version>.crate`
and parsing it back recovers the package id exactly — names with
internal dashes included — whenever the version has no pre-release
component and no dash inside its (well-formed) build metadata, i.e.
whenever the displayed version contains no dash. -/
theorem format_parse_round_trip (name : String) (v : Version)
    (hpre : v.pre = []) (hwf : BuildWF v.build)
    (hdash : ∀ b ∈ v.build, '-' ∉ b.data) :
    parseCrateNameVersion (crateFileName name v) = some (name, v) := by
  unfold parseCrateNameVersion
  have hdata : (crateFileName name v).data =
      (name.data ++ '-' :: versionChars v) ++ crateSuffix := rfl
  rw [hdata]
  simp only [stripCrateSuffix_append,
    splitAtLastDash_append _ _ (dash_not_mem_versionChars hpre hdash),
    parseChars_versionChars v hpre hwf]

/-- C1 amended witness: `async-trait` 0.1.80, a name with an internal
dash. -/
theorem format_parse_round_trip_witness :
    crateFileName "async-trait" ⟨0, 1, 80, [], []⟩ = "async-trait-0.1.80.crate" ∧
      parseCrateNameVersion (crateFileName "async-trait" ⟨0, 1, 80, [], []⟩) =
        some ("async-trait", ⟨0, 1, 80, [], []⟩) :=
  ⟨by decide,
    format_parse_round_trip "async-trait" ⟨0, 1, 80, [], []⟩ rfl
      (fun b hb => absurd hb (List.not_mem_nil b))
      (fun b hb => absurd hb (List.not_mem_nil b))⟩

/-- C6 amended witness: resolved 2.0.0, candidate 2.5.0. -/
theorem synthesized_caret_characterization_witness :
    matchesReq (synthesizedReq ⟨2, 0, 0, [], []⟩) ⟨2, 5, 0, [], []⟩ = true ↔
      (⟨2, 5, 0, [], []⟩ : Version).major = (⟨2, 0, 0, [], []⟩ : Version).major ∧
        ((⟨2, 0, 0, [], []⟩ : Version).major = 0 →
          (⟨2, 5, 0, [], []⟩ : Version).minor = (⟨2, 0, 0, [], []⟩ : Version).minor) ∧
        ((⟨2, 0, 0, [], []⟩ : Version).major = 0 →
          (⟨2, 0, 0, [], []⟩ : Version).minor = 0 →
          (⟨2, 5, 0, [], []⟩ : Version).patch = (⟨2, 0, 0, [], []⟩ : Version).patch) ∧
        versionLtB ⟨2, 5, 0, [], []⟩ ⟨2, 0, 0, [], []⟩ = false :=
  synthesized_caret_characterization ⟨2, 0, 0, [], []⟩ ⟨2, 5, 0, [], []⟩ rfl rfl rfl

end RegistryChecker

